import Mathlib

/-!
# Verification of the AS-ConvQA evaluation and feature pipeline

Shallow embedding of `src/quac_metrics.py` and of the `QuacExample`
constructor of `src/quac_processors_step2_eval.py`, together with proofs
settling the frozen claims C1–C10.

Conventions of the embedding:
* Python strings are Lean `String` / `List Char`; character work is done on
  `List Char`.
* Python floats (logits, F1 scores) are modelled as rationals `ℚ`: every
  claim races over control flow and exact value flow, not rounding.
* Character classes (`string.punctuation`, `str.lower`, regex `\w`,
  `str.split` whitespace) are modelled at ASCII precision, which is the
  alphabet the data and all claims range over.
-/

namespace ASConvQA

/-! ## Character classes -/

/-- `str.split()` whitespace (ASCII): space, tab, LF, VT, FF, CR. -/
def isWsChar (c : Char) : Bool :=
  c = ' ' || c = '\t' || c = '\n' || c = '\x0b' || c = '\x0c' || c = '\r'

/-- A regex `\w` word character (ASCII): letter, digit or underscore.
Used to interpret the `\b` boundaries of `re.sub(r'\b(a|an|the)\b', ...)`. -/
def isWordChar (c : Char) : Bool :=
  c.isAlpha || c.isDigit || c = '_'

/-- Membership in Python's `string.punctuation`
(`!"#$%&'()*+,-./:;<=>?@[\]^_`{|}~`, ASCII codes 33–47, 58–64, 91–96,
123–126), as used by `remove_punc` in `normalize_answer`. -/
def isPunctChar (c : Char) : Bool :=
  (33 ≤ c.toNat && c.toNat ≤ 47) || (58 ≤ c.toNat && c.toNat ≤ 64) ||
  (91 ≤ c.toNat && c.toNat ≤ 96) || (123 ≤ c.toNat && c.toNat ≤ 126)

/-- `str.lower` at ASCII precision: map `A`–`Z` to `a`–`z`. -/
def lowerChar (c : Char) : Char :=
  if h : 65 ≤ c.toNat ∧ c.toNat ≤ 90 then
    Char.ofNatAux (c.toNat + 32) (Or.inl (by omega))
  else c

theorem isWsChar_not_isWordChar {c : Char} (h : isWsChar c = true) :
    isWordChar c = false := by
  simp only [isWsChar, Bool.or_eq_true, decide_eq_true_eq] at h
  rcases h with ((((h | h) | h) | h) | h) | h <;> subst h <;> decide

theorem toNat_ofNatAux (n : Nat) (h : n.isValidChar) : (Char.ofNatAux n h).toNat = n := rfl

theorem lowerChar_idem (c : Char) : lowerChar (lowerChar c) = lowerChar c := by
  unfold lowerChar
  split
  · rename_i h
    rw [dif_neg]
    rw [toNat_ofNatAux]
    omega
  · rfl

/-! ## Whitespace splitting and joining

`text.split()` (split on whitespace runs, dropping empty pieces) and
`" ".join(...)`, the two halves of `white_space_fix`. -/

/-- Negation of `isWsChar`, the predicate describing token characters. -/
def nonWs (c : Char) : Bool := !isWsChar c

/-- Worker for `splitWs`; `acc` is the current token, reversed. -/
def splitWsAux : List Char → List Char → List (List Char)
  | [], acc => if acc = [] then [] else [acc.reverse]
  | c :: cs, acc =>
    if isWsChar c then
      if acc = [] then splitWsAux cs [] else acc.reverse :: splitWsAux cs []
    else splitWsAux cs (c :: acc)

/-- Python `text.split()` on a character list: the maximal runs of
non-whitespace characters, in order. -/
def splitWs (cs : List Char) : List (List Char) := splitWsAux cs []

/-- Python `" ".join(ts)` on character-list tokens. -/
def joinSpace : List (List Char) → List Char
  | [] => []
  | [t] => t
  | t :: ts => t ++ ' ' :: joinSpace ts

theorem joinSpace_nil : joinSpace [] = [] := rfl

theorem joinSpace_single (t : List Char) : joinSpace [t] = t := rfl

theorem joinSpace_cons₂ (t u : List Char) (ts : List (List Char)) :
    joinSpace (t :: u :: ts) = t ++ ' ' :: joinSpace (u :: ts) := rfl

theorem mem_of_mem_takeWhile {α} {p : α → Bool} :
    ∀ {l : List α} {a : α}, a ∈ l.takeWhile p → p a = true := by
  intro l
  induction l with
  | nil => intro a h; simp [List.takeWhile] at h
  | cons x xs ih =>
    intro a h
    rw [List.takeWhile_cons] at h
    split at h
    · rcases List.mem_cons.mp h with rfl | h
      · assumption
      · exact ih h
    · simp at h

theorem takeWhile_all {α} {p : α → Bool} {l : List α} (h : ∀ a ∈ l, p a = true) :
    l.takeWhile p = l := by
  induction l with
  | nil => rfl
  | cons x xs ih =>
    rw [List.takeWhile_cons_of_pos (h x (List.mem_cons_self x xs))]
    rw [ih (fun a ha => h a (List.mem_cons_of_mem x ha))]

theorem dropWhile_all {α} {p : α → Bool} {l : List α} (h : ∀ a ∈ l, p a = true) :
    l.dropWhile p = [] := by
  induction l with
  | nil => rfl
  | cons x xs ih =>
    rw [List.dropWhile_cons_of_pos (h x (List.mem_cons_self x xs))]
    exact ih (fun a ha => h a (List.mem_cons_of_mem x ha))

theorem splitWsAux_token_append {xs : List Char} (hxs : ∀ x ∈ xs, isWsChar x = false) :
    ∀ (cs acc : List Char), splitWsAux (xs ++ cs) acc = splitWsAux cs (xs.reverse ++ acc) := by
  induction xs with
  | nil => intro cs acc; simp
  | cons x xs ih =>
    intro cs acc
    have hx : isWsChar x = false := hxs x (List.mem_cons_self x xs)
    have hxs' : ∀ y ∈ xs, isWsChar y = false := fun y hy => hxs y (List.mem_cons_of_mem x hy)
    simp only [List.cons_append, splitWsAux, hx, Bool.false_eq_true, if_false,
      List.reverse_cons, List.append_assoc, List.singleton_append]
    exact ih hxs' cs (x :: acc)

theorem splitWs_cons_ws {c : Char} (h : isWsChar c = true) (cs : List Char) :
    splitWs (c :: cs) = splitWs cs := by
  simp [splitWs, splitWsAux, h]

theorem head_of_dropWhile_cons {α} {p : α → Bool} :
    ∀ {l : List α} {d : α} {r : List α}, l.dropWhile p = d :: r → p d = false := by
  intro l
  induction l with
  | nil => intro d r h; simp [List.dropWhile] at h
  | cons x xs ih =>
    intro d r h
    rw [List.dropWhile_cons] at h
    split at h
    · exact ih h
    · rename_i hx
      cases h
      simpa using hx

theorem splitWs_cons_tok {c : Char} (h : isWsChar c = false) (cs : List Char) :
    splitWs (c :: cs) =
      (c :: cs.takeWhile nonWs) :: splitWs (cs.dropWhile nonWs) := by
  have h0 : splitWs (c :: cs) = splitWsAux cs [c] := by
    simp [splitWs, splitWsAux, h]
  have hsplit : cs.takeWhile nonWs ++ cs.dropWhile nonWs = cs :=
    List.takeWhile_append_dropWhile nonWs cs
  have htw : ∀ x ∈ cs.takeWhile nonWs, isWsChar x = false := by
    intro x hx
    have := mem_of_mem_takeWhile hx
    simpa [nonWs] using this
  rw [h0]
  conv_lhs => rw [← hsplit]
  rw [splitWsAux_token_append htw]
  rcases hdw : cs.dropWhile nonWs with _ | ⟨d, r⟩
  · simp [splitWsAux, splitWs]
  · have hd : nonWs d = false := head_of_dropWhile_cons hdw
    have hdws : isWsChar d = true := by
      simpa [nonWs] using hd
    simp [splitWsAux, hdws, splitWs]

/-- Every piece produced by `splitWs` is a non-empty whitespace-free run. -/
theorem splitWsAux_sound :
    ∀ (cs acc : List Char), (∀ c ∈ acc, isWsChar c = false) →
      ∀ t ∈ splitWsAux cs acc, t ≠ [] ∧ ∀ c ∈ t, isWsChar c = false := by
  intro cs
  induction cs with
  | nil =>
    intro acc hacc t ht
    simp only [splitWsAux] at ht
    split at ht
    · simp at ht
    · rename_i hne
      rcases List.mem_singleton.mp ht with rfl
      refine ⟨by simpa using hne, ?_⟩
      intro c hc
      exact hacc c (List.mem_reverse.mp hc)
  | cons c cs ih =>
    intro acc hacc t ht
    simp only [splitWsAux] at ht
    by_cases hws : isWsChar c = true
    · rw [if_pos hws] at ht
      split at ht
      · exact ih [] (by simp) t ht
      · rename_i hne
        rcases List.mem_cons.mp ht with rfl | ht'
        · refine ⟨by simpa using hne, ?_⟩
          intro d hd
          exact hacc d (List.mem_reverse.mp hd)
        · exact ih [] (by simp) t ht'
    · rw [if_neg hws] at ht
      refine ih (c :: acc) ?_ t ht
      intro d hd
      rcases List.mem_cons.mp hd with rfl | hd'
      · simpa using hws
      · exact hacc d hd'

theorem splitWs_sound {cs : List Char} {t : List Char} (ht : t ∈ splitWs cs) :
    t ≠ [] ∧ ∀ c ∈ t, isWsChar c = false :=
  splitWsAux_sound cs [] (by simp) t ht

/-- Re-splitting a space-join of whitespace-free non-empty tokens recovers
exactly the tokens: `white_space_fix` is idempotent at the token level. -/
theorem splitWs_joinSpace :
    ∀ (ts : List (List Char)),
      (∀ t ∈ ts, t ≠ [] ∧ ∀ c ∈ t, isWsChar c = false) →
      splitWs (joinSpace ts) = ts := by
  intro ts
  induction ts with
  | nil => intro _; rfl
  | cons t ts ih =>
    intro hts
    obtain ⟨htne, htc⟩ := hts t (List.mem_cons_self t ts)
    rcases ht : t with _ | ⟨c, u⟩
    · exact absurd ht htne
    have hc : isWsChar c = false := htc c (by rw [ht]; exact List.mem_cons_self c u)
    have hu : ∀ x ∈ u, nonWs x = true := by
      intro x hx
      have := htc x (by rw [ht]; exact List.mem_cons_of_mem c hx)
      simp [nonWs, this]
    rcases ts with _ | ⟨t', ts'⟩
    · rw [joinSpace_single, splitWs_cons_tok hc]
      have h1 : u.takeWhile nonWs = u := takeWhile_all hu
      have h2 : u.dropWhile nonWs = [] := dropWhile_all hu
      simp [h1, h2, splitWs, splitWsAux]
    · rw [joinSpace_cons₂, List.cons_append, splitWs_cons_tok hc]
      have hsp : nonWs ' ' = false := by decide
      have h1 : (u ++ ' ' :: joinSpace (t' :: ts')).takeWhile nonWs = u := by
        rw [List.takeWhile_append_of_pos hu, List.takeWhile_cons_of_neg (by simp [hsp])]
        simp
      have h2 : (u ++ ' ' :: joinSpace (t' :: ts')).dropWhile nonWs =
          ' ' :: joinSpace (t' :: ts') := by
        rw [List.dropWhile_append_of_pos hu, List.dropWhile_cons_of_neg (by simp [hsp])]
      rw [h1, h2, splitWs_cons_ws (by decide)]
      exact congrArg _ (ih (fun x hx => hts x (List.mem_cons_of_mem t hx)))

/-! ## Article removal

`remove_articles` of `normalize_answer` is `re.sub(r'\b(a|an|the)\b', ' ', text)`.
Because `a`, `an` and `the` consist of word characters only, a match of this
pattern is exactly a maximal run of word characters equal to one of the three
articles: the leading `\b` forces the match to begin where a word-character
run begins, and the trailing `\b` forces it to end where the run ends.  Each
match is replaced by a single space. -/

/-- The three replaced words of the pattern `\b(a|an|the)\b`. -/
def isArticle (r : List Char) : Bool :=
  r = ['a'] || r = ['a', 'n'] || r = ['t', 'h', 'e']

/-- Flush the pending (reversed) word-character run: an article run becomes
the single-space replacement text, any other run is kept verbatim. -/
def flushRun (acc : List Char) : List Char :=
  if acc = [] then [] else if isArticle acc.reverse then [' '] else acc.reverse

/-- Worker for `removeArticles`; `acc` is the current maximal word-character
run, reversed. -/
def removeArticlesAux : List Char → List Char → List Char
  | [], acc => flushRun acc
  | c :: cs, acc =>
    if isWordChar c then removeArticlesAux cs (c :: acc)
    else flushRun acc ++ c :: removeArticlesAux cs []

/-- `remove_articles(text)`: replace every maximal word-character run equal
to `a`, `an` or `the` by one space. -/
def removeArticles (cs : List Char) : List Char := removeArticlesAux cs []

theorem word_not_ws {c : Char} (h : isWordChar c = true) : isWsChar c = false := by
  cases hws : isWsChar c
  · rfl
  · rw [isWsChar_not_isWordChar hws] at h
    exact absurd h (by simp)

theorem removeArticles_nil : removeArticles [] = [] := rfl

theorem removeArticles_cons_not_word {c : Char} (h : isWordChar c = false) (cs : List Char) :
    removeArticles (c :: cs) = c :: removeArticles cs := by
  simp [removeArticles, removeArticlesAux, h, flushRun]

theorem removeArticlesAux_run_append {xs : List Char} (hxs : ∀ x ∈ xs, isWordChar x = true) :
    ∀ (cs acc : List Char),
      removeArticlesAux (xs ++ cs) acc = removeArticlesAux cs (xs.reverse ++ acc) := by
  induction xs with
  | nil => intro cs acc; simp
  | cons x xs ih =>
    intro cs acc
    have hx : isWordChar x = true := hxs x (List.mem_cons_self x xs)
    have hxs' : ∀ y ∈ xs, isWordChar y = true := fun y hy => hxs y (List.mem_cons_of_mem x hy)
    simp only [List.cons_append, removeArticlesAux, hx, if_true,
      List.reverse_cons, List.append_assoc, List.singleton_append]
    exact ih hxs' cs (x :: acc)

theorem removeArticles_cons_word {c : Char} (h : isWordChar c = true) (cs : List Char) :
    removeArticles (c :: cs) =
      (if isArticle (c :: cs.takeWhile isWordChar) then [' ']
       else c :: cs.takeWhile isWordChar) ++ removeArticles (cs.dropWhile isWordChar) := by
  have h0 : removeArticles (c :: cs) = removeArticlesAux cs [c] := by
    simp [removeArticles, removeArticlesAux, h]
  have hsplit : cs.takeWhile isWordChar ++ cs.dropWhile isWordChar = cs :=
    List.takeWhile_append_dropWhile isWordChar cs
  have htw : ∀ x ∈ cs.takeWhile isWordChar, isWordChar x = true := fun x hx =>
    mem_of_mem_takeWhile hx
  rw [h0]
  conv_lhs => rw [← hsplit]
  rw [removeArticlesAux_run_append htw]
  have hflush : flushRun ((cs.takeWhile isWordChar).reverse ++ [c]) =
      if isArticle (c :: cs.takeWhile isWordChar) then [' ']
      else c :: cs.takeWhile isWordChar := by
    simp [flushRun]
  rcases hdw : cs.dropWhile isWordChar with _ | ⟨d, r⟩
  · simp [removeArticlesAux, hflush, removeArticles, flushRun]
  · have hd : isWordChar d = false := head_of_dropWhile_cons hdw
    simp [removeArticlesAux, hd, hflush, removeArticles,
      removeArticles_cons_not_word hd, flushRun]

theorem removeArticles_single_not_word {c : Char} (h : isWordChar c = false) :
    removeArticles [c] = [c] := by
  rw [removeArticles_cons_not_word h, removeArticles_nil]

theorem removeArticles_run_fixed {c : Char} {t0 : List Char} (hc : isWordChar c = true)
    (ht0 : ∀ x ∈ t0, isWordChar x = true) (hart : isArticle (c :: t0) = false) :
    removeArticles (c :: t0) = c :: t0 := by
  rw [removeArticles_cons_word hc]
  have h1 : t0.takeWhile isWordChar = t0 := takeWhile_all ht0
  have h2 : t0.dropWhile isWordChar = [] := dropWhile_all ht0
  rw [h1, h2, if_neg (by simp [hart]), removeArticles_nil, List.append_nil]

theorem length_dropWhile_le {α} (p : α → Bool) (l : List α) :
    (l.dropWhile p).length ≤ l.length := by
  induction l with
  | nil => simp [List.dropWhile]
  | cons x xs ih =>
    rw [List.dropWhile_cons]
    split
    · exact le_trans ih (Nat.le_succ _)
    · simp

/-- `removeArticles` distributes over an append whose right part does not
begin with a word character (no match can straddle the boundary). -/
theorem removeArticles_append :
    ∀ (xs ys : List Char), (∀ d, ys.head? = some d → isWordChar d = false) →
      removeArticles (xs ++ ys) = removeArticles xs ++ removeArticles ys := by
  have main : ∀ (n : Nat) (xs ys : List Char), xs.length ≤ n →
      (∀ d, ys.head? = some d → isWordChar d = false) →
      removeArticles (xs ++ ys) = removeArticles xs ++ removeArticles ys := by
    intro n
    induction n with
    | zero =>
      intro xs ys hlen _
      have hxs : xs = [] := List.length_eq_zero.mp (Nat.le_zero.mp hlen)
      subst hxs
      simp [removeArticles_nil]
    | succ n ih =>
      intro xs ys hlen hy
      rcases xs with _ | ⟨c, xs⟩
      · simp [removeArticles_nil]
      by_cases hc : isWordChar c = true
      · have hty : ys.takeWhile isWordChar = [] := by
          cases hys : ys with
          | nil => rfl
          | cons d r => exact List.takeWhile_cons_of_neg (by simp [hy d (by rw [hys]; rfl)])
        have hdy : ys.dropWhile isWordChar = ys := by
          cases hys : ys with
          | nil => rfl
          | cons d r => exact List.dropWhile_cons_of_neg (by simp [hy d (by rw [hys]; rfl)])
        have htw : (xs ++ ys).takeWhile isWordChar = xs.takeWhile isWordChar := by
          rw [List.takeWhile_append]
          split
          · rename_i hfull
            have hxfix : xs.takeWhile isWordChar = xs :=
              (List.takeWhile_prefix _).eq_of_length hfull
            rw [hty, hxfix, List.append_nil]
          · rfl
        have hdw : (xs ++ ys).dropWhile isWordChar = xs.dropWhile isWordChar ++ ys := by
          rw [List.dropWhile_append]
          split
          · rename_i hempty
            have h1 : xs.dropWhile isWordChar = [] := by
              simpa [List.isEmpty_iff] using hempty
            rw [h1, hdy, List.nil_append]
          · rfl
        have hlen2 : (xs.dropWhile isWordChar).length ≤ n :=
          le_trans (length_dropWhile_le _ _) (Nat.le_of_succ_le_succ hlen)
        rw [List.cons_append, removeArticles_cons_word hc, removeArticles_cons_word hc,
          htw, hdw, ih _ ys hlen2 hy, List.append_assoc]
      · replace hc : isWordChar c = false := by simpa using hc
        rw [List.cons_append, removeArticles_cons_not_word hc, removeArticles_cons_not_word hc,
          ih xs ys (Nat.le_of_succ_le_succ hlen) hy, List.cons_append]
  intro xs ys hy
  exact main xs.length xs ys le_rfl hy

/-- `removeArticles` acts tokenwise on a space-join (a single space is not a
word character, so no match crosses it). -/
theorem removeArticles_joinSpace (ts : List (List Char)) :
    removeArticles (joinSpace ts) = joinSpace (ts.map removeArticles) := by
  induction ts with
  | nil => rfl
  | cons t ts ih =>
    rcases ts with _ | ⟨u, ts'⟩
    · simp [joinSpace]
    · rw [joinSpace_cons₂, List.map_cons,
        removeArticles_append t (' ' :: joinSpace (u :: ts'))
          (by intro d hd; cases hd; decide),
        removeArticles_cons_not_word (by decide), ih, List.map_cons, joinSpace_cons₂]

/-- Central invariant: every whitespace token of a `removeArticles` output is
itself a fixed point of `removeArticles` (no article word-run survives). -/
theorem removeArticles_splitWs_fixed :
    ∀ (u : List Char), ∀ t ∈ splitWs (removeArticles u), removeArticles t = t := by
  have main : ∀ (n : Nat) (u : List Char), u.length ≤ n →
      ∀ t ∈ splitWs (removeArticles u), removeArticles t = t := by
    intro n
    induction n with
    | zero =>
      intro u hlen t ht
      have hu : u = [] := List.length_eq_zero.mp (Nat.le_zero.mp hlen)
      subst hu
      simp [removeArticles_nil, splitWs, splitWsAux] at ht
    | succ n ih =>
      intro u hlen t ht
      rcases u with _ | ⟨c, cs⟩
      · simp [removeArticles_nil, splitWs, splitWsAux] at ht
      have hcslen : cs.length ≤ n := Nat.le_of_succ_le_succ hlen
      by_cases hc : isWordChar c = true
      · -- word-character head: the maximal run at the front is flushed whole
        rw [removeArticles_cons_word hc] at ht
        obtain ⟨t0, ht0def⟩ : ∃ t0, cs.takeWhile isWordChar = t0 := ⟨_, rfl⟩
        obtain ⟨r, hrdef⟩ : ∃ r, cs.dropWhile isWordChar = r := ⟨_, rfl⟩
        rw [ht0def, hrdef] at ht
        have ht0w : ∀ x ∈ t0, isWordChar x = true := fun x hx =>
          mem_of_mem_takeWhile (ht0def ▸ hx)
        have hrlen : r.length ≤ n := by
          rw [← hrdef]
          exact le_trans (length_dropWhile_le _ _) hcslen
        by_cases hart : isArticle (c :: t0) = true
        · rw [if_pos hart, List.singleton_append, splitWs_cons_ws (by decide)] at ht
          exact ih r hrlen t ht
        · replace hart : isArticle (c :: t0) = false := by simpa using hart
          rw [if_neg (by simp [hart])] at ht
          have hcnw : isWsChar c = false := word_not_ws hc
          have ht0nw : ∀ x ∈ t0, nonWs x = true := fun x hx => by
            simp [nonWs, word_not_ws (ht0w x hx)]
          rw [List.cons_append, splitWs_cons_tok hcnw,
            List.takeWhile_append_of_pos ht0nw, List.dropWhile_append_of_pos ht0nw] at ht
          have hrh : ∀ d z, removeArticles r = d :: z → isWordChar d = false := by
            intro d z hdz
            rcases hr : r with _ | ⟨e, r'⟩
            · rw [hr] at hdz
              simp [removeArticles_nil] at hdz
            · have hcs : cs.dropWhile isWordChar = e :: r' := by rw [hrdef, hr]
              have he : isWordChar e = false := head_of_dropWhile_cons hcs
              rw [hr, removeArticles_cons_not_word he] at hdz
              injection hdz with h1 _
              exact h1 ▸ he
          rcases hrr : removeArticles r with _ | ⟨d, z⟩
          · rw [hrr] at ht
            simp only [List.takeWhile_nil, List.dropWhile_nil, List.append_nil] at ht
            have hsw : splitWs ([] : List Char) = [] := rfl
            rw [hsw] at ht
            rcases List.mem_singleton.mp (by simpa using ht) with rfl
            exact removeArticles_run_fixed hc ht0w hart
          · have hd : isWordChar d = false := hrh d z hrr
            rw [hrr] at ht
            by_cases hwd : isWsChar d = true
            · have h1 : (d :: z).takeWhile nonWs = [] :=
                List.takeWhile_cons_of_neg (by simp [nonWs, hwd])
              have h2 : (d :: z).dropWhile nonWs = d :: z :=
                List.dropWhile_cons_of_neg (by simp [nonWs, hwd])
              rw [h1, h2, List.append_nil] at ht
              rcases List.mem_cons.mp ht with rfl | ht'
              · exact removeArticles_run_fixed hc ht0w hart
              · exact ih r hrlen t (by rw [hrr]; exact ht')
            · replace hwd : isWsChar d = false := by simpa using hwd
              have h1 : (d :: z).takeWhile nonWs = d :: z.takeWhile nonWs :=
                List.takeWhile_cons_of_pos (by simp [nonWs, hwd])
              have h2 : (d :: z).dropWhile nonWs = z.dropWhile nonWs :=
                List.dropWhile_cons_of_pos (by simp [nonWs, hwd])
              rw [h1, h2] at ht
              have hsub : splitWs (removeArticles r) =
                  (d :: z.takeWhile nonWs) :: splitWs (z.dropWhile nonWs) := by
                rw [hrr]
                exact splitWs_cons_tok hwd z
              have hfirst : removeArticles (d :: z.takeWhile nonWs) = d :: z.takeWhile nonWs :=
                ih r hrlen _ (by rw [hsub]; exact List.mem_cons_self _ _)
              rcases List.mem_cons.mp ht with rfl | ht'
              · rw [removeArticles_cons_word hc]
                have htw2 : (t0 ++ d :: z.takeWhile nonWs).takeWhile isWordChar = t0 := by
                  rw [List.takeWhile_append_of_pos ht0w,
                    List.takeWhile_cons_of_neg (by simp [hd]), List.append_nil]
                have hdw2 : (t0 ++ d :: z.takeWhile nonWs).dropWhile isWordChar =
                    d :: z.takeWhile nonWs := by
                  rw [List.dropWhile_append_of_pos ht0w,
                    List.dropWhile_cons_of_neg (by simp [hd])]
                rw [htw2, hdw2, if_neg (by simp [hart]), hfirst, List.cons_append]
              · exact ih r hrlen t (by rw [hsub]; exact List.mem_cons_of_mem _ ht')
      · -- non-word head: passed through unchanged
        replace hc : isWordChar c = false := by simpa using hc
        rw [removeArticles_cons_not_word hc] at ht
        by_cases hws : isWsChar c = true
        · rw [splitWs_cons_ws hws] at ht
          exact ih cs hcslen t ht
        · replace hws : isWsChar c = false := by simpa using hws
          rw [splitWs_cons_tok hws] at ht
          rcases hrc : removeArticles cs with _ | ⟨d, z⟩
          · rw [hrc] at ht
            simp only [List.takeWhile_nil, List.dropWhile_nil] at ht
            have hsw : splitWs ([] : List Char) = [] := rfl
            rw [hsw] at ht
            rcases List.mem_singleton.mp (by simpa using ht) with rfl
            exact removeArticles_single_not_word hc
          · rw [hrc] at ht
            by_cases hwd : isWsChar d = true
            · have h1 : (d :: z).takeWhile nonWs = [] :=
                List.takeWhile_cons_of_neg (by simp [nonWs, hwd])
              have h2 : (d :: z).dropWhile nonWs = d :: z :=
                List.dropWhile_cons_of_neg (by simp [nonWs, hwd])
              rw [h1, h2] at ht
              rcases List.mem_cons.mp ht with rfl | ht'
              · exact removeArticles_single_not_word hc
              · exact ih cs hcslen t (by rw [hrc]; exact ht')
            · replace hwd : isWsChar d = false := by simpa using hwd
              have h1 : (d :: z).takeWhile nonWs = d :: z.takeWhile nonWs :=
                List.takeWhile_cons_of_pos (by simp [nonWs, hwd])
              have h2 : (d :: z).dropWhile nonWs = z.dropWhile nonWs :=
                List.dropWhile_cons_of_pos (by simp [nonWs, hwd])
              rw [h1, h2] at ht
              have hsub : splitWs (removeArticles cs) =
                  (d :: z.takeWhile nonWs) :: splitWs (z.dropWhile nonWs) := by
                rw [hrc]
                exact splitWs_cons_tok hwd z
              have hfirst : removeArticles (d :: z.takeWhile nonWs) = d :: z.takeWhile nonWs :=
                ih cs hcslen _ (by rw [hsub]; exact List.mem_cons_self _ _)
              rcases List.mem_cons.mp ht with rfl | ht'
              · rw [removeArticles_cons_not_word hc, hfirst]
              · exact ih cs hcslen t (by rw [hsub]; exact List.mem_cons_of_mem _ ht')
  intro u t ht
  exact main u.length u le_rfl t ht

/-! ## `normalize_answer` -/

/-- `lower(text)`: `text.lower()`. -/
def lowerList (cs : List Char) : List Char := cs.map lowerChar

/-- `remove_punc(text)`: drop every `string.punctuation` character. -/
def removePunct (cs : List Char) : List Char := cs.filter (fun c => !isPunctChar c)

/-- `white_space_fix(text)`: `' '.join(text.split())`. -/
def whiteSpaceFix (cs : List Char) : List Char := joinSpace (splitWs cs)

/-- `normalize_answer(s)` of `quac_metrics.py`:
`white_space_fix(remove_articles(remove_punc(lower(s))))`. -/
def normalize_answer (s : String) : String :=
  ⟨whiteSpaceFix (removeArticles (removePunct (lowerList s.data)))⟩

theorem mem_joinSpace_cons {c : Char} {t : List Char} {ts : List (List Char)}
    (h : c ∈ joinSpace (t :: ts)) : c ∈ t ∨ c ∈ joinSpace ts ∨ c = ' ' := by
  rcases ts with _ | ⟨u, ts'⟩
  · rw [joinSpace_single] at h
    exact Or.inl h
  · rw [joinSpace_cons₂] at h
    rcases List.mem_append.mp h with h' | h'
    · exact Or.inl h'
    · rcases List.mem_cons.mp h' with rfl | h''
      · exact Or.inr (Or.inr rfl)
      · exact Or.inr (Or.inl h'')

theorem mem_whiteSpaceFix {c : Char} {cs : List Char} (h : c ∈ whiteSpaceFix cs) :
    c ∈ cs ∨ c = ' ' := by
  have main : ∀ (cs acc : List Char), c ∈ joinSpace (splitWsAux cs acc) →
      c ∈ cs ∨ c ∈ acc ∨ c = ' ' := by
    intro cs
    induction cs with
    | nil =>
      intro acc h
      simp only [splitWsAux] at h
      split at h
      · simp [joinSpace_nil] at h
      · rw [joinSpace_single] at h
        exact Or.inr (Or.inl (List.mem_reverse.mp h))
    | cons x xs ih =>
      intro acc h
      simp only [splitWsAux] at h
      by_cases hx : isWsChar x = true
      · rw [if_pos hx] at h
        split at h
        · rcases ih [] h with h' | h' | h'
          · exact Or.inl (List.mem_cons_of_mem x h')
          · simp at h'
          · exact Or.inr (Or.inr h')
        · rcases mem_joinSpace_cons h with h' | h' | h'
          · exact Or.inr (Or.inl (List.mem_reverse.mp h'))
          · rcases ih [] h' with h'' | h'' | h''
            · exact Or.inl (List.mem_cons_of_mem x h'')
            · simp at h''
            · exact Or.inr (Or.inr h'')
          · exact Or.inr (Or.inr h')
      · rw [if_neg hx] at h
        rcases ih (x :: acc) h with h' | h' | h'
        · exact Or.inl (List.mem_cons_of_mem x h')
        · rcases List.mem_cons.mp h' with rfl | h''
          · exact Or.inl (List.mem_cons_self _ _)
          · exact Or.inr (Or.inl h'')
        · exact Or.inr (Or.inr h')
  rcases main cs [] h with h' | h' | h'
  · exact Or.inl h'
  · simp at h'
  · exact Or.inr h'

theorem mem_removeArticles {c : Char} {cs : List Char} (h : c ∈ removeArticles cs) :
    c ∈ cs ∨ c = ' ' := by
  have hflush : ∀ (acc : List Char), c ∈ flushRun acc → c ∈ acc ∨ c = ' ' := by
    intro acc h
    unfold flushRun at h
    split at h
    · simp at h
    · split at h
      · rcases List.mem_singleton.mp h with rfl
        exact Or.inr rfl
      · exact Or.inl (List.mem_reverse.mp h)
  have main : ∀ (cs acc : List Char), c ∈ removeArticlesAux cs acc →
      c ∈ cs ∨ c ∈ acc ∨ c = ' ' := by
    intro cs
    induction cs with
    | nil =>
      intro acc h
      simp only [removeArticlesAux] at h
      rcases hflush acc h with h' | h'
      · exact Or.inr (Or.inl h')
      · exact Or.inr (Or.inr h')
    | cons x xs ih =>
      intro acc h
      simp only [removeArticlesAux] at h
      split at h
      · rcases ih (x :: acc) h with h' | h' | h'
        · exact Or.inl (List.mem_cons_of_mem x h')
        · rcases List.mem_cons.mp h' with rfl | h''
          · exact Or.inl (List.mem_cons_self _ _)
          · exact Or.inr (Or.inl h'')
        · exact Or.inr (Or.inr h')
      · rcases List.mem_append.mp h with h' | h'
        · rcases hflush acc h' with h'' | h''
          · exact Or.inr (Or.inl h'')
          · exact Or.inr (Or.inr h'')
        · rcases List.mem_cons.mp h' with rfl | h''
          · exact Or.inl (List.mem_cons_self _ _)
          · rcases ih [] h'' with h3 | h3 | h3
            · exact Or.inl (List.mem_cons_of_mem x h3)
            · simp at h3
            · exact Or.inr (Or.inr h3)
  rcases main cs [] h with h' | h' | h'
  · exact Or.inl h'
  · simp at h'
  · exact Or.inr h'

theorem map_eq_self_of_fixed {α} {f : α → α} :
    ∀ {l : List α}, (∀ a ∈ l, f a = a) → l.map f = l := by
  intro l
  induction l with
  | nil => intro _; rfl
  | cons x xs ih =>
    intro h
    rw [List.map_cons, h x (List.mem_cons_self x xs),
      ih (fun a ha => h a (List.mem_cons_of_mem x ha))]

/-- Every character of `normalize_answer s` is a `lowerChar` fixed point and
is not a punctuation character. -/
theorem normalize_answer_chars {s : String} {c : Char}
    (h : c ∈ (normalize_answer s).data) :
    lowerChar c = c ∧ isPunctChar c = false := by
  have h0 : c ∈ whiteSpaceFix (removeArticles (removePunct (lowerList s.data))) := h
  have hsp : lowerChar ' ' = ' ' ∧ isPunctChar ' ' = false := by constructor <;> decide
  rcases mem_whiteSpaceFix h0 with h1 | h1
  · rcases mem_removeArticles h1 with h2 | h2
    · have h3 := List.mem_filter.mp h2
      have h4 : isPunctChar c = false := by simpa using h3.2
      rcases List.mem_map.mp h3.1 with ⟨d, _, rfl⟩
      exact ⟨lowerChar_idem d, h4⟩
    · subst h2
      exact hsp
  · subst h1
    exact hsp

/-- C9: `normalize_answer` is idempotent. -/
theorem normalize_answer_idem (s : String) :
    normalize_answer (normalize_answer s) = normalize_answer s := by
  have hlow : lowerList (normalize_answer s).data = (normalize_answer s).data :=
    map_eq_self_of_fixed (fun c hc => (normalize_answer_chars hc).1)
  have hpunct : removePunct (normalize_answer s).data = (normalize_answer s).data := by
    unfold removePunct
    rw [List.filter_eq_self]
    intro c hc
    simp [(normalize_answer_chars hc).2]
  have hdata : (normalize_answer s).data =
      joinSpace (splitWs (removeArticles (removePunct (lowerList s.data)))) := rfl
  have hart : removeArticles (normalize_answer s).data = (normalize_answer s).data := by
    rw [hdata, removeArticles_joinSpace,
      map_eq_self_of_fixed (removeArticles_splitWs_fixed (removePunct (lowerList s.data)))]
  have hwsf : whiteSpaceFix (normalize_answer s).data = (normalize_answer s).data := by
    rw [hdata]
    unfold whiteSpaceFix
    rw [splitWs_joinSpace _ (fun t ht => splitWs_sound ht)]
  show (⟨whiteSpaceFix (removeArticles (removePunct
      (lowerList (normalize_answer s).data)))⟩ : String) = normalize_answer s
  rw [hlow, hpunct, hart, hwsf]

/-! ## `f1_score` and `single_score` -/

/-- The normalized token list of a string: `normalize_answer(s).split()`. -/
def answerTokens (s : String) : List (List Char) := splitWs (normalize_answer s).data

/-- `sum((Counter(p) & Counter(g)).values())`: the `&` of two `Counter`s
keeps the minimum multiplicity per key, which is exactly the multiset
intersection, and `sum(..values())` is its total size. -/
def numSame (p g : List (List Char)) : Nat :=
  Multiset.card ((p : Multiset (List Char)) ∩ (g : Multiset (List Char)))

/-- `f1_score(prediction, ground_truth)` of `quac_metrics.py`: bag-of-words
F1 over normalized tokens, with an early `return 0` when no token is shared
(the floats of the source are modelled as rationals). -/
def f1_score (prediction ground_truth : String) : ℚ :=
  let prediction_tokens := answerTokens prediction
  let ground_truth_tokens := answerTokens ground_truth
  let num_same := numSame prediction_tokens ground_truth_tokens
  if num_same = 0 then 0
  else
    let precision : ℚ := (num_same : ℚ) / prediction_tokens.length
    let recall_ : ℚ := (num_same : ℚ) / ground_truth_tokens.length
    2 * precision * recall_ / (precision + recall_)

/-- `single_score(prediction, ground_truth)` of `quac_metrics.py`: the
null-sentinel special cases in front of `f1_score`. -/
def single_score (prediction ground_truth : String) : ℚ :=
  if prediction = "CANNOTANSWER" ∧ ground_truth = "CANNOTANSWER" then 1
  else if prediction = "CANNOTANSWER" ∨ ground_truth = "CANNOTANSWER" then 0
  else f1_score prediction ground_truth

theorem numSame_self (t : List (List Char)) : numSame t t = t.length := by
  unfold numSame
  rw [← Multiset.inf_eq_inter, inf_idem]
  exact Multiset.coe_card t

theorem numSame_eq_zero_of_disjoint {p g : List (List Char)}
    (h : ∀ w ∈ p, w ∉ g) : numSame p g = 0 := by
  unfold numSame
  rw [Multiset.card_eq_zero, Multiset.inter_eq_zero_iff_disjoint, Multiset.disjoint_left]
  intro a ha
  exact fun hg => h a (by exact_mod_cast ha) (by exact_mod_cast hg)

theorem f1_score_of_numSame_zero {p g : String}
    (h : numSame (answerTokens p) (answerTokens g) = 0) : f1_score p g = 0 := by
  simp only [f1_score]
  rw [if_pos h]

/-- C7 (amended): `f1_score(x, x) = 1` for every string whose normalized
token list is non-empty, and `f1_score` is `0` on token-disjoint strings. -/
theorem f1_score_self_eq_one_and_disjoint_eq_zero :
    (∀ x : String, answerTokens x ≠ [] → f1_score x x = 1) ∧
    (∀ p g : String, (∀ w ∈ answerTokens p, w ∉ answerTokens g) → f1_score p g = 0) := by
  constructor
  · intro x hx
    simp only [f1_score, numSame_self]
    have hlen : (answerTokens x).length ≠ 0 := by
      simpa [List.length_eq_zero] using hx
    rw [if_neg hlen]
    have hq : ((answerTokens x).length : ℚ) ≠ 0 := by
      exact_mod_cast hlen
    rw [div_self hq]
    norm_num
  · intro p g h
    exact f1_score_of_numSame_zero (numSame_eq_zero_of_disjoint h)

/-- C7 counterexample: `"the"` is a non-empty string, yet
`f1_score("the", "the")` is `0`, not `1.0`: normalization deletes the
article and leaves no tokens, so the zero-overlap branch fires. -/
theorem f1_score_self_not_one_on_article :
    ("the" : String) ≠ "" ∧ f1_score "the" "the" = 0 ∧ f1_score "the" "the" ≠ 1 := by
  refine ⟨by decide, by decide, by decide⟩

/-- C10: `f1_score` reaches the ratio computation only with a non-zero token
overlap; with no shared token — in particular whenever normalization leaves
an empty token list — it returns `0` through the early branch. -/
theorem f1_score_total_zero_overlap :
    (∀ p g : String, numSame (answerTokens p) (answerTokens g) = 0 → f1_score p g = 0) ∧
    (∀ p g : String, answerTokens p = [] → f1_score p g = 0) := by
  constructor
  · intro p g h
    exact f1_score_of_numSame_zero h
  · intro p g h
    apply f1_score_of_numSame_zero
    rw [h]
    unfold numSame
    rw [Multiset.coe_nil, Multiset.zero_inter]
    rfl

/-! ## `handle_cannot` -/

/-- The two counters accumulated by `handle_cannot`'s loop:
`(num_cannot, num_spans)`. -/
def countCannot (refs : List String) : Nat × Nat :=
  refs.foldl
    (fun acc r => if r = "CANNOTANSWER" then (acc.1 + 1, acc.2) else (acc.1, acc.2 + 1))
    (0, 0)

/-- `handle_cannot(refs)` of `quac_metrics.py`: collapse to the null
sentinel when null references dominate, otherwise drop the nulls. -/
def handle_cannot (refs : List String) : List String :=
  if (countCannot refs).1 ≥ (countCannot refs).2 then ["CANNOTANSWER"]
  else refs.filter (fun r => r ≠ "CANNOTANSWER")

theorem countCannot_eq (refs : List String) :
    countCannot refs =
      (refs.countP (fun r => r = "CANNOTANSWER"),
       refs.countP (fun r => r ≠ "CANNOTANSWER")) := by
  have main : ∀ (l : List String) (a b : Nat),
      l.foldl
        (fun acc r => if r = "CANNOTANSWER" then (acc.1 + 1, acc.2) else (acc.1, acc.2 + 1))
        (a, b) =
      (a + l.countP (fun r => r = "CANNOTANSWER"),
       b + l.countP (fun r => r ≠ "CANNOTANSWER")) := by
    intro l
    induction l with
    | nil => intro a b; simp
    | cons r rs ih =>
      intro a b
      by_cases hr : r = "CANNOTANSWER"
      · rw [List.foldl_cons, if_pos hr, ih]
        simp [List.countP_cons, Prod.mk.injEq, hr]
        omega
      · rw [List.foldl_cons, if_neg hr, ih]
        simp [List.countP_cons, Prod.mk.injEq, hr]
        omega
  unfold countCannot
  rw [main]
  simp

/-- C3: `handle_cannot` collapses to `["CANNOTANSWER"]` exactly when the
null references are at least as many as the others, and otherwise removes
the nulls keeping the remaining references in order (a sublist). -/
theorem handle_cannot_spec (refs : List String) :
    (refs.countP (fun r => r = "CANNOTANSWER") ≥ refs.countP (fun r => r ≠ "CANNOTANSWER") →
      handle_cannot refs = ["CANNOTANSWER"]) ∧
    (refs.countP (fun r => r = "CANNOTANSWER") < refs.countP (fun r => r ≠ "CANNOTANSWER") →
      handle_cannot refs = refs.filter (fun r => r ≠ "CANNOTANSWER") ∧
      List.Sublist (handle_cannot refs) refs) := by
  constructor
  · intro h
    unfold handle_cannot
    rw [if_pos (by rw [countCannot_eq]; exact h)]
  · intro h
    have heq : handle_cannot refs = refs.filter (fun r => r ≠ "CANNOTANSWER") := by
      unfold handle_cannot
      rw [if_neg (by rw [countCannot_eq]; simpa using Nat.not_le.mpr h)]
    exact ⟨heq, heq ▸ List.filter_sublist refs⟩

/-- C3 witness: the two worked examples of the specification. -/
theorem handle_cannot_witness :
    handle_cannot ["CANNOTANSWER", "CANNOTANSWER", "Paris"] = ["CANNOTANSWER"] ∧
    handle_cannot ["CANNOTANSWER", "Paris", "London"] = ["Paris", "London"] :=
  ⟨(handle_cannot_spec _).1 (by decide),
   (((handle_cannot_spec ["CANNOTANSWER", "Paris", "London"]).2 (by decide)).1).trans (by decide)⟩

/-! ## `leave_one_out_max` -/

/-- Python `max` over a list of scores; its use sites always pass a
non-empty list, and the junk value `0` models the impossible empty case. -/
def maxScore : List ℚ → ℚ
  | [] => 0
  | s :: rest => rest.foldl max s

/-- `leave_one_out_max(prediction, ground_truths)` of `quac_metrics.py`:
score against every reference, then average the held-one-out maxima
(`max(scores[:i] + scores[i+1:])` for each `i`). -/
def leave_one_out_max (prediction : String) (ground_truths : List String) : ℚ :=
  let scores_for_ground_truths := ground_truths.map (single_score prediction)
  if scores_for_ground_truths.length = 1 then scores_for_ground_truths.headD 0
  else
    let t_f1 := (List.range scores_for_ground_truths.length).map
      (fun i => maxScore
        (scores_for_ground_truths.take i ++ scores_for_ground_truths.drop (i + 1)))
    t_f1.sum / t_f1.length

/-- C4: on a single reference `leave_one_out_max` is `single_score` against
it, and on two or more references it is the average over held-out indices
`i` of the maximum of `single_score` against the references at the other
indices (`gts.eraseIdx i`). -/
theorem leave_one_out_max_spec (p : String) (gts : List String) (hne : gts ≠ []) :
    (∀ g, gts = [g] → leave_one_out_max p gts = single_score p g) ∧
    (2 ≤ gts.length →
      leave_one_out_max p gts =
        ((List.range gts.length).map
          (fun i => maxScore ((gts.eraseIdx i).map (single_score p)))).sum / gts.length) := by
  constructor
  · intro g hg
    subst hg
    simp [leave_one_out_max]
  · intro hlen
    have hmaplen : (gts.map (single_score p)).length = gts.length := List.length_map _ _
    have hne1 : ¬((gts.map (single_score p)).length = 1) := by
      rw [hmaplen]
      omega
    simp only [leave_one_out_max, if_neg hne1]
    have hfun : (fun i => maxScore
        ((gts.map (single_score p)).take i ++ (gts.map (single_score p)).drop (i + 1))) =
        (fun i => maxScore ((gts.eraseIdx i).map (single_score p))) := by
      funext i
      rw [List.eraseIdx_eq_take_drop_succ, List.map_append, List.map_take, List.map_drop]
    rw [hmaplen, hfun]
    congr 1
    simp

/-! ## `QuacExample.__init__` tokenization (`quac_processors_step2_eval.py`)

The constructor scans `context_text` once: a non-whitespace character either
starts a new doc token (after whitespace) or extends the current one, and
after every character it appends `len(doc_tokens) - 1` to
`char_to_word_offset`. -/

/-- `_is_whitespace(c)`: space, tab, CR, LF, or U+202F. -/
def isWhitespaceQuac (c : Char) : Bool :=
  c = ' ' || c = '\t' || c = '\r' || c = '\n' || c.toNat = 0x202F

/-- `doc_tokens[-1] += c`: extend the last token.  The `[]` case is
unreachable at the use site (`prev_is_whitespace` is false only after a
token has been started). -/
def appendLastTok : List (List Char) → Char → List (List Char)
  | [], c => [[c]]
  | [t], c => [t ++ [c]]
  | t :: ts, c => t :: appendLastTok ts c

/-- The character loop of `QuacExample.__init__` over
`(doc_tokens, char_to_word_offset, prev_is_whitespace)`. -/
def quacScanAux : List Char → List (List Char) → List Int → Bool →
    List (List Char) × List Int
  | [], toks, offs, _ => (toks, offs)
  | c :: cs, toks, offs, prevWs =>
    if isWhitespaceQuac c then
      quacScanAux cs toks (offs ++ [(toks.length : Int) - 1]) true
    else
      quacScanAux cs
        (if prevWs then toks ++ [[c]] else appendLastTok toks c)
        (offs ++ [((if prevWs then toks ++ [[c]] else appendLastTok toks c).length : Int) - 1])
        false

/-- `doc_tokens` of a constructed `QuacExample`. -/
def quacDocTokens (context_text : String) : List String :=
  (quacScanAux context_text.data [] [] true).1.map (fun t => (⟨t⟩ : String))

/-- `char_to_word_offset` of a constructed `QuacExample` (each entry is the
recorded `len(doc_tokens) - 1`, an integer that is `-1` before the first
token starts). -/
def quacCharToWordOffset (context_text : String) : List Int :=
  (quacScanAux context_text.data [] [] true).2

theorem appendLastTok_length {toks : List (List Char)} (h : toks ≠ []) (c : Char) :
    (appendLastTok toks c).length = toks.length := by
  induction toks with
  | nil => exact absurd rfl h
  | cons t ts ih =>
    rcases ts with _ | ⟨u, ts'⟩
    · rfl
    · have : (appendLastTok (u :: ts') c).length = (u :: ts').length := ih (by simp)
      simp [appendLastTok, this]

theorem quacScanAux_offsets_length :
    ∀ (cs : List Char) (toks : List (List Char)) (offs : List Int) (prev : Bool),
      ((quacScanAux cs toks offs prev).2).length = offs.length + cs.length := by
  intro cs
  induction cs with
  | nil => intro toks offs prev; simp [quacScanAux]
  | cons c cs ih =>
    intro toks offs prev
    simp only [quacScanAux]
    split
    · rw [ih]
      simp
      omega
    · rw [ih]
      simp
      omega

/-- C6: `char_to_word_offset` has exactly one entry per character of
`context_text`, for every context (the answer fields play no role in the
scan). -/
theorem quacCharToWordOffset_length (context_text : String) :
    (quacCharToWordOffset context_text).length = context_text.length := by
  unfold quacCharToWordOffset
  rw [quacScanAux_offsets_length, List.length_nil, Nat.zero_add]
  rfl

/-- Number of doc tokens started while scanning `cs`, the scan beginning
with `prev_is_whitespace = prevWs`: a token starts at each non-whitespace
character that follows whitespace (or the beginning). -/
def numTokenStarts : Bool → List Char → Nat
  | _, [] => 0
  | prevWs, c :: cs =>
    if isWhitespaceQuac c then numTokenStarts true cs
    else (if prevWs then 1 else 0) + numTokenStarts false cs

/-- The offset list described in closed form: character `i` maps to
(number of tokens started up to and including position `i`) − 1, i.e. the
index of the most recently started doc token, or `-1` if none. -/
def offsetsSpec (cs : List Char) : List Int :=
  (List.range cs.length).map (fun i => (numTokenStarts true (cs.take (i + 1)) : Int) - 1)

/-- Recursive form of `offsetsSpec`, tracking `k` already-started tokens. -/
def offsetsSpecAux : Nat → Bool → List Char → List Int
  | _, _, [] => []
  | k, prevWs, c :: cs =>
    if isWhitespaceQuac c then ((k : Int) - 1) :: offsetsSpecAux k true cs
    else if prevWs then ((k : Int) + 1 - 1) :: offsetsSpecAux (k + 1) false cs
    else ((k : Int) - 1) :: offsetsSpecAux k false cs

theorem quacScanAux_offsets_spec :
    ∀ (cs : List Char) (toks : List (List Char)) (offs : List Int) (prev : Bool),
      (prev = false → toks ≠ []) →
      (quacScanAux cs toks offs prev).2 = offs ++ offsetsSpecAux toks.length prev cs := by
  intro cs
  induction cs with
  | nil => intro toks offs prev _; simp [quacScanAux, offsetsSpecAux]
  | cons c cs ih =>
    intro toks offs prev hinv
    simp only [quacScanAux, offsetsSpecAux]
    by_cases hws : isWhitespaceQuac c = true
    · rw [if_pos hws, if_pos hws, ih toks _ true (by simp)]
      simp
    · rw [if_neg hws, if_neg hws]
      by_cases hprev : prev = true
      · subst hprev
        rw [if_pos rfl, if_pos rfl, ih _ _ false (fun _ => by simp)]
        simp only [List.length_append, List.length_singleton, List.append_assoc,
          List.singleton_append]
        push_cast
        rfl
      · have hprev' : prev = false := by simpa using hprev
        subst hprev'
        have htoks : toks ≠ [] := hinv rfl
        have hlast : (appendLastTok toks c).length = toks.length :=
          appendLastTok_length htoks c
        rw [if_neg (by simp), if_neg (by simp),
          ih _ _ false (fun _ hcon => by
            rw [hcon, List.length_nil] at hlast
            exact htoks (List.length_eq_zero.mp hlast.symm)),
          hlast]
        simp

theorem offsetsSpecAux_eq :
    ∀ (cs : List Char) (k : Nat) (prev : Bool),
      offsetsSpecAux k prev cs =
        (List.range cs.length).map
          (fun i => ((k : Int) + (numTokenStarts prev (cs.take (i + 1)) : Int)) - 1) := by
  intro cs
  induction cs with
  | nil => intro k prev; simp [offsetsSpecAux]
  | cons c cs ih =>
    intro k prev
    rw [List.length_cons, List.range_succ_eq_map, List.map_cons, List.map_map]
    simp only [offsetsSpecAux]
    by_cases hws : isWhitespaceQuac c = true
    · rw [if_pos hws, ih]
      refine List.cons_eq_cons.mpr ⟨?_, ?_⟩
      · simp [numTokenStarts, hws]
      · refine List.map_congr_left ?_
        intro i _
        simp only [Function.comp_apply, List.take_succ_cons, numTokenStarts, hws, if_true]
    · rw [if_neg hws]
      by_cases hprev : prev = true
      · subst hprev
        rw [if_pos rfl, ih]
        refine List.cons_eq_cons.mpr ⟨?_, ?_⟩
        · simp [numTokenStarts, hws]
        · refine List.map_congr_left ?_
          intro i _
          simp only [Function.comp_apply, List.take_succ_cons, numTokenStarts, hws,
            Bool.false_eq_true, if_false, if_true]
          push_cast
          ring
      · have hprev' : prev = false := by simpa using hprev
        subst hprev'
        rw [if_neg (by simp), ih]
        refine List.cons_eq_cons.mpr ⟨?_, ?_⟩
        · simp [numTokenStarts, hws]
        · refine List.map_congr_left ?_
          intro i _
          simp only [Function.comp_apply, List.take_succ_cons, numTokenStarts, hws,
            Bool.false_eq_true, if_false]
          push_cast
          ring

/-- C5 (amended): for every context and every character position `i`,
`char_to_word_offset[i]` is the number of doc tokens started in the first
`i + 1` characters minus one — the index of the **most recently started**
token (`-1` before any token): a whitespace character between two doc
tokens maps to the *preceding* token's index, and a non-whitespace
character to the index of the token containing it. -/
theorem quacCharToWordOffset_eq_offsetsSpec (context_text : String) :
    quacCharToWordOffset context_text = offsetsSpec context_text.data := by
  unfold quacCharToWordOffset offsetsSpec
  rw [quacScanAux_offsets_spec context_text.data [] [] true (by simp),
    offsetsSpecAux_eq]
  simp

/-- C5 counterexample: in context `"a b"` the whitespace at character
index 1 lies between doc token 0 (`"a"`) and doc token 1 (`"b"`); the claim
requires `char_to_word_offset[1]` to be the index `1` of the *following*
token, but the constructor records `0`. -/
theorem quacCharToWordOffset_ws_precedes :
    quacDocTokens "a b" = ["a", "b"] ∧
    quacCharToWordOffset "a b" = [0, 0, 1] ∧ ((0 : Int) ≠ 1) := by
  refine ⟨by decide, by decide, by decide⟩

/-! ## `get_final_text`

`get_final_text(pred_text, orig_text, do_lower_case, ...)` projects a
tokenized prediction back onto the original text.  The `BasicTokenizer`
(an external `transformers` dependency; `do_lower_case` only configures it)
is abstracted as a parameter `tok : String → List String`; `tok_text` is
`" ".join(tokenizer.tokenize(orig_text))`. -/

/-- `_strip_spaces(text)`: the characters other than `' '` together with
`ns_to_s_map`, the pairs (stripped index, original index); `i` and `k` are
the next original and stripped indices. -/
def stripSpacesAux : List Char → Nat → Nat → List Char × List (Nat × Nat)
  | [], _, _ => ([], [])
  | c :: cs, i, k =>
    if c = ' ' then stripSpacesAux cs (i + 1) k
    else
      ((c :: (stripSpacesAux cs (i + 1) (k + 1)).1),
       (k, i) :: (stripSpacesAux cs (i + 1) (k + 1)).2)

/-- `_strip_spaces(text)` from index 0. -/
def stripSpaces (cs : List Char) : List Char × List (Nat × Nat) :=
  stripSpacesAux cs 0 0

/-- `haystack.find(needle)` on character lists: the least index where the
pattern occurs as a contiguous substring, if any. -/
def findSub : List Char → List Char → Option Nat
  | hay, pat =>
    if pat.isPrefixOf hay then some 0
    else
      match hay with
      | [] => none
      | _ :: t => (findSub t pat).map (· + 1)

/-- `" ".join(tokenizer.tokenize(orig_text))`. -/
def gftTokText (tok : String → List String) (orig_text : String) : String :=
  String.intercalate " " (tok orig_text)

/-- `tok_text.find(pred_text)` — `none` models Python's `-1`. -/
def gftStart (tok : String → List String) (pred_text orig_text : String) : Option Nat :=
  findSub (gftTokText tok orig_text).data pred_text.data

/-- Position translation chain of `get_final_text`: a `tok_text` position
goes through `tok_s_to_ns_map` (the inversion of the tokenized side's
stripped map, with integer keys since `end_position` can be `-1`) and then
through `orig_ns_to_s_map`; `none` models a missing dictionary key. -/
def gftChain (tok : String → List String) (orig_text : String) (pos : Int) : Option Nat :=
  (List.lookup pos
      ((stripSpaces (gftTokText tok orig_text).data).2.map (fun p => ((p.2 : Int), p.1)))).bind
    (fun ns => List.lookup ns (stripSpaces orig_text.data).2)

/-- `get_final_text(pred_text, orig_text, ...)`: each failed stage returns
`orig_text` unchanged; on success the original text is sliced at the
translated bounds (`orig_text[orig_start : orig_end + 1]`). -/
def get_final_text (tok : String → List String) (pred_text orig_text : String) : String :=
  match gftStart tok pred_text orig_text with
  | none => orig_text
  | some start_position =>
    if (stripSpaces orig_text.data).1.length ≠
        (stripSpaces (gftTokText tok orig_text).data).1.length then orig_text
    else
      match gftChain tok orig_text (start_position : Int),
        gftChain tok orig_text ((start_position : Int) + pred_text.length - 1) with
      | some orig_start, some orig_end =>
        ⟨(orig_text.data.drop orig_start).take (orig_end + 1 - orig_start)⟩
      | some _, none => orig_text
      | none, _ => orig_text

/-- C8: `get_final_text` returns `orig_text` unchanged whenever the
alignment fails: the prediction is not found in the re-tokenized text, the
space-stripped strings differ in length, or the start/end position has no
entry in the position maps. -/
theorem get_final_text_aborts (tok : String → List String) (pred_text orig_text : String) :
    (gftStart tok pred_text orig_text = none →
      get_final_text tok pred_text orig_text = orig_text) ∧
    ((stripSpaces orig_text.data).1.length ≠
        (stripSpaces (gftTokText tok orig_text).data).1.length →
      get_final_text tok pred_text orig_text = orig_text) ∧
    (∀ s, gftStart tok pred_text orig_text = some s →
      (gftChain tok orig_text (s : Int) = none ∨
        gftChain tok orig_text ((s : Int) + pred_text.length - 1) = none) →
      get_final_text tok pred_text orig_text = orig_text) := by
  refine ⟨?_, ?_, ?_⟩
  · intro h
    unfold get_final_text
    rw [h]
  · intro h
    unfold get_final_text
    cases hs : gftStart tok pred_text orig_text with
    | none => rfl
    | some s =>
      dsimp only
      rw [if_pos h]
  · intro s hs hchain
    unfold get_final_text
    rw [hs]
    dsimp only
    by_cases hlen : (stripSpaces orig_text.data).1.length ≠
        (stripSpaces (gftTokText tok orig_text).data).1.length
    · rw [if_pos hlen]
    · rw [if_neg hlen]
      rcases hchain with hchain | hchain
      · rw [hchain]
      · rw [hchain]
        cases gftChain tok orig_text (s : Int) <;> rfl

/-! ## `compute_predictions_logits`: n-best materialization and decision

Per example the function sorts the preliminary candidates by
`start_logit + end_logit` (rank order), materializes at most `n_best_size`
distinct texts, patches the null text in, and finally decides
answerable-vs-null from `score_diff`.  The embedding starts from the sorted
`prelim_predictions` list; the detokenize + `get_final_text` text recovery
of a non-null candidate (lines 404–419) is abstracted as `resolveText`,
the claims holding for every resolution. -/

/-- A `_PrelimPrediction` (the `feature_index` and `class_logit` fields play
no role in the claims; `start_index = 0` marks the synthetic null). -/
structure PrelimPrediction where
  start_index : Nat
  end_index : Nat
  start_logit : ℚ
  end_logit : ℚ
deriving DecidableEq

/-- An `_NbestPrediction` record. -/
structure NbestPrediction where
  text : String
  start_logit : ℚ
  end_logit : ℚ
deriving DecidableEq

/-- An `_NbestPredictionStart` record: the TODO-marked parallel entry that
additionally carries `answer_start = actual_doc_text.find(final_text)`. -/
structure NbestPredictionStart where
  text : String
  start_logit : ℚ
  end_logit : ℚ
  answer_start : Int
deriving DecidableEq

/-- Python `haystack.find(needle)`: index of the first occurrence, `-1` if
absent. -/
def pyFind (hay pat : List Char) : Int :=
  match findSub hay pat with
  | some n => (n : Int)
  | none => -1

/-- The loop locals of the ranked walk: the two parallel n-best lists, the
keys of `seen_predictions`, and the local variable `answer_start` —
`none` while still unbound; it is assigned on every executed loop body
(line 419 in the non-null branch, before the dedup `continue`, and
line 431 in the null branch). -/
structure NbestWalkState where
  nbest : List NbestPrediction
  nbest_start : List NbestPredictionStart
  seen : List String
  answer_start : Option Int
deriving DecidableEq

/-- The ranked walk (lines 390–437): stop at `n_best_size` entries; a
non-null candidate (`start_index > 0`) resolves its text (the
detokenize/`get_final_text` pipeline of lines 404–415 abstracted as
`resolveText`, the claims holding for every resolution), records
`answer_start = context_text.find(text)`, and appends to both lists unless
the text was already seen; a null candidate appends `"CANNOTANSWER"`
unconditionally. -/
def nbestWalk (resolveText : PrelimPrediction → String) (context_text : String)
    (n_best_size : Nat) :
    List PrelimPrediction → NbestWalkState → NbestWalkState
  | [], st => st
  | pred :: preds, st =>
    if n_best_size ≤ st.nbest.length then st
    else if 0 < pred.start_index then
      if resolveText pred ∈ st.seen then
        nbestWalk resolveText context_text n_best_size preds
          ⟨st.nbest, st.nbest_start, st.seen,
           some (pyFind context_text.data (resolveText pred).data)⟩
      else
        nbestWalk resolveText context_text n_best_size preds
          ⟨st.nbest ++ [⟨resolveText pred, pred.start_logit, pred.end_logit⟩],
           st.nbest_start ++ [⟨resolveText pred, pred.start_logit, pred.end_logit,
             pyFind context_text.data (resolveText pred).data⟩],
           resolveText pred :: st.seen,
           some (pyFind context_text.data (resolveText pred).data)⟩
    else
      nbestWalk resolveText context_text n_best_size preds
        ⟨st.nbest ++ [⟨"CANNOTANSWER", pred.start_logit, pred.end_logit⟩],
         st.nbest_start ++ [⟨"CANNOTANSWER", pred.start_logit, pred.end_logit,
           pyFind context_text.data "CANNOTANSWER".data⟩],
         "CANNOTANSWER" :: st.seen,
         some (pyFind context_text.data "CANNOTANSWER".data)⟩

/-- Lines 439–454 after the walk: when the null text is absent, append the
tracked-logit null entry to `nbest` and the parallel entry to `nbest_start`
(lines 441 and 443–444); then, if the list is empty, the zero-logit nonce
(lines 448–452).  Both parallel appends read the loop variable
`answer_start`; `none` models the `UnboundLocalError` the source raises
when it was never assigned, i.e. when no loop body ran. -/
def materializeNbest (resolveText : PrelimPrediction → String) (context_text : String)
    (n_best_size : Nat) (null_start_logit null_end_logit : ℚ)
    (prelim : List PrelimPrediction) :
    Option (List NbestPrediction × List NbestPredictionStart) :=
  let w := nbestWalk resolveText context_text n_best_size prelim ⟨[], [], [], none⟩
  let step1 : Option (List NbestPrediction × List NbestPredictionStart) :=
    if "CANNOTANSWER" ∈ w.seen then some (w.nbest, w.nbest_start)
    else
      match w.answer_start with
      | none => none
      | some a =>
        some (w.nbest ++ [⟨"CANNOTANSWER", null_start_logit, null_end_logit⟩],
          w.nbest_start ++ [⟨"CANNOTANSWER", null_start_logit, null_end_logit, a⟩])
  match step1 with
  | none => none
  | some (nb, nbs) =>
    if nb = [] then
      match w.answer_start with
      | none => none
      | some a =>
        some (nb ++ [⟨"CANNOTANSWER", 0, 0⟩], nbs ++ [⟨"CANNOTANSWER", 0, 0, a⟩])
    else some (nb, nbs)

/-- Walk invariant: every key of `seen_predictions` is the text of some
materialized entry. -/
theorem nbestWalk_seen_inv (resolveText : PrelimPrediction → String) (context_text : String)
    (n_best_size : Nat) :
    ∀ (preds : List PrelimPrediction) (st : NbestWalkState),
      (∀ s ∈ st.seen, ∃ e ∈ st.nbest, NbestPrediction.text e = s) →
      ∀ s ∈ (nbestWalk resolveText context_text n_best_size preds st).seen,
        ∃ e ∈ (nbestWalk resolveText context_text n_best_size preds st).nbest,
          NbestPrediction.text e = s := by
  intro preds
  induction preds with
  | nil => intro st hinv; exact hinv
  | cons pred preds ih =>
    intro st hinv
    simp only [nbestWalk]
    split
    · exact hinv
    · split
      · split
        · exact ih _ hinv
        · refine ih _ ?_
          intro s hs
          rcases List.mem_cons.mp hs with rfl | hs'
          · exact ⟨⟨resolveText pred, pred.start_logit, pred.end_logit⟩,
              List.mem_append_right _ (List.mem_singleton.mpr rfl), rfl⟩
          · rcases hinv s hs' with ⟨e, he, het⟩
            exact ⟨e, List.mem_append_left _ he, het⟩
      · refine ih _ ?_
        intro s hs
        rcases List.mem_cons.mp hs with rfl | hs'
        · exact ⟨⟨"CANNOTANSWER", pred.start_logit, pred.end_logit⟩,
            List.mem_append_right _ (List.mem_singleton.mpr rfl), rfl⟩
        · rcases hinv s hs' with ⟨e, he, het⟩
          exact ⟨e, List.mem_append_left _ he, het⟩

/-- Walk invariant: while nothing has been materialized, no loop body has
run — `seen_predictions` is empty and `answer_start` is unbound. -/
theorem nbestWalk_empty_inv (resolveText : PrelimPrediction → String) (context_text : String)
    (n_best_size : Nat) :
    ∀ (preds : List PrelimPrediction) (st : NbestWalkState),
      (st.nbest = [] → st.answer_start = none ∧ st.seen = []) →
      ((nbestWalk resolveText context_text n_best_size preds st).nbest = [] →
        (nbestWalk resolveText context_text n_best_size preds st).answer_start = none ∧
        (nbestWalk resolveText context_text n_best_size preds st).seen = []) := by
  intro preds
  induction preds with
  | nil => intro st hinv; exact hinv
  | cons pred preds ih =>
    intro st hinv
    simp only [nbestWalk]
    split
    · exact hinv
    · split
      · split
        · rename_i hmem
          refine ih _ ?_
          intro hnil
          obtain ⟨-, hseen⟩ := hinv hnil
          rw [hseen] at hmem
          exact absurd hmem (List.not_mem_nil _)
        · refine ih _ ?_
          intro hnil
          exact absurd hnil (by simp)
      · refine ih _ ?_
        intro hnil
        exact absurd hnil (by simp)

/-- Walk invariant: once `answer_start` is bound it stays bound. -/
theorem nbestWalk_astart_stays (resolveText : PrelimPrediction → String) (context_text : String)
    (n_best_size : Nat) :
    ∀ (preds : List PrelimPrediction) (st : NbestWalkState),
      st.answer_start ≠ none →
      (nbestWalk resolveText context_text n_best_size preds st).answer_start ≠ none := by
  intro preds
  induction preds with
  | nil => intro st h; exact h
  | cons pred preds ih =>
    intro st h
    simp only [nbestWalk]
    split
    · exact h
    · split
      · split
        · exact ih _ (by simp)
        · exact ih _ (by simp)
      · exact ih _ (by simp)

/-- C2 (amended): whenever `compute_predictions_logits` completes the
materialization for an example (in particular for every `n_best_size ≥ 1`,
since the synthetic null guarantees a non-empty candidate list), the n-best
list is non-empty and contains a `"CANNOTANSWER"` entry, the null text
being appended if absent after the ranked walk with the tracked
minimum-null `start_logit`/`end_logit`; when no candidate at all survives
the walk, no zero-logit entry is synthesized — the parallel `nbest_start`
append reads the never-assigned `answer_start` and the function raises
`UnboundLocalError` instead. -/
theorem materializeNbest_spec (resolveText : PrelimPrediction → String) (context_text : String)
    (n_best_size : Nat) (null_start_logit null_end_logit : ℚ)
    (prelim : List PrelimPrediction) :
    (∀ nb nbs,
      materializeNbest resolveText context_text n_best_size null_start_logit null_end_logit
          prelim = some (nb, nbs) →
      nb ≠ [] ∧ (∃ e ∈ nb, NbestPrediction.text e = "CANNOTANSWER") ∧
      ("CANNOTANSWER" ∉
          (nbestWalk resolveText context_text n_best_size prelim ⟨[], [], [], none⟩).seen →
        nb = (nbestWalk resolveText context_text n_best_size prelim ⟨[], [], [], none⟩).nbest ++
          [⟨"CANNOTANSWER", null_start_logit, null_end_logit⟩])) ∧
    ((nbestWalk resolveText context_text n_best_size prelim ⟨[], [], [], none⟩).nbest = [] →
      materializeNbest resolveText context_text n_best_size null_start_logit null_end_logit
        prelim = none) ∧
    (1 ≤ n_best_size → prelim ≠ [] →
      materializeNbest resolveText context_text n_best_size null_start_logit null_end_logit
        prelim ≠ none) := by
  have hseen := nbestWalk_seen_inv resolveText context_text n_best_size prelim
    ⟨[], [], [], none⟩ (by simp)
  by_cases hca : "CANNOTANSWER" ∈
      (nbestWalk resolveText context_text n_best_size prelim ⟨[], [], [], none⟩).seen
  · obtain ⟨e, he, het⟩ := hseen "CANNOTANSWER" hca
    have hne : (nbestWalk resolveText context_text n_best_size prelim ⟨[], [], [], none⟩).nbest
        ≠ [] := by
      intro hcon
      rw [hcon] at he
      exact List.not_mem_nil e he
    have hres : materializeNbest resolveText context_text n_best_size null_start_logit
        null_end_logit prelim =
        some ((nbestWalk resolveText context_text n_best_size prelim ⟨[], [], [], none⟩).nbest,
          (nbestWalk resolveText context_text n_best_size prelim
            ⟨[], [], [], none⟩).nbest_start) := by
      unfold materializeNbest
      dsimp only
      rw [if_pos hca]
      dsimp only
      rw [if_neg hne]
    refine ⟨?_, fun hnil => absurd hnil hne, fun _ _ => by rw [hres]; simp⟩
    intro nb nbs h
    rw [hres] at h
    obtain ⟨hnb, -⟩ := Prod.mk.injEq .. ▸ Option.some.inj h
    subst hnb
    exact ⟨hne, ⟨e, he, het⟩, fun hcon => absurd hca hcon⟩
  · cases ha : (nbestWalk resolveText context_text n_best_size prelim
        ⟨[], [], [], none⟩).answer_start with
    | none =>
      have hres : materializeNbest resolveText context_text n_best_size null_start_logit
          null_end_logit prelim = none := by
        unfold materializeNbest
        dsimp only
        rw [if_neg hca, ha]
      refine ⟨fun nb nbs h => absurd (hres ▸ h) (by simp), fun _ => hres, ?_⟩
      intro hn hprelim
      rcases prelim with _ | ⟨p, ps⟩
      · exact absurd rfl hprelim
      · exfalso
        have hsome : (nbestWalk resolveText context_text n_best_size (p :: ps)
            ⟨[], [], [], none⟩).answer_start ≠ none := by
          simp only [nbestWalk]
          rw [if_neg (by simp; omega)]
          by_cases hp : 0 < p.start_index
          · rw [if_pos hp, if_neg (by simp)]
            exact nbestWalk_astart_stays resolveText context_text n_best_size ps _ (by simp)
          · rw [if_neg hp]
            exact nbestWalk_astart_stays resolveText context_text n_best_size ps _ (by simp)
        exact hsome ha
    | some a =>
      have hres : materializeNbest resolveText context_text n_best_size null_start_logit
          null_end_logit prelim =
          some ((nbestWalk resolveText context_text n_best_size prelim
              ⟨[], [], [], none⟩).nbest ++
            [⟨"CANNOTANSWER", null_start_logit, null_end_logit⟩],
            (nbestWalk resolveText context_text n_best_size prelim
              ⟨[], [], [], none⟩).nbest_start ++
            [⟨"CANNOTANSWER", null_start_logit, null_end_logit, a⟩]) := by
        unfold materializeNbest
        dsimp only
        rw [if_neg hca, ha]
        dsimp only
        rw [if_neg (by simp)]
      refine ⟨?_, ?_, fun _ _ => by rw [hres]; simp⟩
      · intro nb nbs h
        rw [hres] at h
        obtain ⟨hnb, -⟩ := Prod.mk.injEq .. ▸ Option.some.inj h
        subst hnb
        refine ⟨by simp, ?_, fun _ => rfl⟩
        exact ⟨⟨"CANNOTANSWER", null_start_logit, null_end_logit⟩,
          List.mem_append_right _ (List.mem_singleton.mpr rfl), rfl⟩
      · intro hnil
        obtain ⟨ha', -⟩ := nbestWalk_empty_inv resolveText context_text n_best_size prelim
          ⟨[], [], [], none⟩ (fun _ => ⟨rfl, rfl⟩) hnil
        rw [ha] at ha'
        exact absurd ha' (by simp)

/-- C2 counterexample: with `n_best_size = 0` nothing survives the ranked
walk, so `answer_start` was never assigned; the source appends the null
text to `nbest` (line 441) but then crashes with `UnboundLocalError` on the
parallel `nbest_start` append (lines 443–444) — modelled as `none` — so no
zero-logit null entry is synthesized and no non-empty n-best list
containing `"CANNOTANSWER"` is materialized at all. -/
theorem materializeNbest_no_survivor_crashes :
    (nbestWalk (fun _ => "x") "ctx" 0 [⟨0, 0, 5, 5⟩] ⟨[], [], [], none⟩).nbest = [] ∧
    materializeNbest (fun _ => "x") "ctx" 0 5 5 [⟨0, 0, 5, 5⟩] = none := by
  refine ⟨by decide, by decide⟩

/-- `best_non_null_entry`: the first entry of the ranked n-best list whose
text is not the null sentinel (lines 457–462). -/
def firstNonNull (nbest : List NbestPrediction) : Option NbestPrediction :=
  nbest.find? (fun e => e.text ≠ "CANNOTANSWER")

/-- `score_diff` (lines 492–496): the tracked minimum null score minus the
best non-null entry's logits, or the sentinel `10` when every entry is
null. -/
def scoreDiff (score_null : ℚ) (nbest : List NbestPrediction) : ℚ :=
  match firstNonNull nbest with
  | none => 10
  | some e => score_null - e.start_logit - e.end_logit

/-- The final prediction (lines 498–501): the null sentinel when
`score_diff > null_score_diff_threshold`, otherwise the best non-null
entry's text; `none` models the `AttributeError` the source would raise on
`best_non_null_entry.text` when no non-null entry exists (reachable only
for thresholds `≥ 10`). -/
def finalPrediction (null_score_diff_threshold score_null : ℚ)
    (nbest : List NbestPrediction) : Option String :=
  if null_score_diff_threshold < scoreDiff score_null nbest then some "CANNOTANSWER"
  else (firstNonNull nbest).map (fun e => e.text)

/-- C1: `score_diff` is `score_null` minus the first non-null entry's
`start_logit` and `end_logit` (in rank order), or the sentinel `10` when no
non-null entry exists; the prediction is `"CANNOTANSWER"` exactly when
`score_diff > null_score_diff_threshold`, and otherwise the first non-null
entry's text. -/
theorem compute_predictions_logits_decision (score_null threshold : ℚ)
    (nbest : List NbestPrediction) :
    (∀ e, firstNonNull nbest = some e →
      scoreDiff score_null nbest = score_null - e.start_logit - e.end_logit) ∧
    (firstNonNull nbest = none → scoreDiff score_null nbest = 10) ∧
    (finalPrediction threshold score_null nbest = some "CANNOTANSWER" ↔
      threshold < scoreDiff score_null nbest) ∧
    (¬ threshold < scoreDiff score_null nbest →
      ∀ e, firstNonNull nbest = some e →
        finalPrediction threshold score_null nbest = some (NbestPrediction.text e)) := by
  refine ⟨?_, ?_, ?_, ?_⟩
  · intro e he
    unfold scoreDiff
    rw [he]
  · intro h
    unfold scoreDiff
    rw [h]
  · constructor
    · intro h
      by_contra hlt
      unfold finalPrediction at h
      rw [if_neg hlt] at h
      cases he : firstNonNull nbest with
      | none => rw [he] at h; exact Option.noConfusion h
      | some e =>
        rw [he] at h
        have hpred := List.find?_some he
        have hca : NbestPrediction.text e = "CANNOTANSWER" := Option.some.inj h
        simp [hca] at hpred
    · intro h
      unfold finalPrediction
      rw [if_pos h]
  · intro hlt e he
    unfold finalPrediction
    rw [if_neg hlt, he]
    rfl

/-! ## Concrete witnesses -/

/-- A concrete one-token tokenizer instantiating the `get_final_text`
theorem. -/
def tokIdentity : String → List String := fun s => [s]

/-- C8 witness: `"xy"` does not occur in the re-tokenization of `"ab"`, and
`get_final_text` returns `"ab"` unchanged. -/
theorem get_final_text_aborts_witness :
    get_final_text tokIdentity "xy" "ab" = "ab" :=
  (get_final_text_aborts tokIdentity "xy" "ab").1 (by decide)

/-- C7 witness: identical strings with surviving tokens score `1`;
token-disjoint strings score `0`. -/
theorem f1_score_self_disjoint_witness :
    f1_score "paris france" "paris france" = 1 ∧ f1_score "london" "tokyo" = 0 :=
  ⟨f1_score_self_eq_one_and_disjoint_eq_zero.1 "paris france" (by decide),
   f1_score_self_eq_one_and_disjoint_eq_zero.2 "london" "tokyo" (by decide)⟩

/-- C10 witness: an empty prediction and an articles-only prediction both
score `0` with no division attempted. -/
theorem f1_score_degenerate_witness :
    f1_score "" "the cat" = 0 ∧ f1_score "the" "a" = 0 :=
  ⟨f1_score_total_zero_overlap.2 "" "the cat" (by decide),
   f1_score_total_zero_overlap.2 "the" "a" (by decide)⟩

/-- C4 witness: a singleton reference list reduces to `single_score`, and a
two-reference list averages the held-one-out maxima. -/
theorem leave_one_out_max_witness :
    leave_one_out_max "Paris" ["Paris"] = single_score "Paris" "Paris" ∧
    leave_one_out_max "Paris" ["Paris", "London"] =
      ((List.range (["Paris", "London"] : List String).length).map
        (fun i => maxScore (((["Paris", "London"] : List String).eraseIdx i).map
          (single_score "Paris")))).sum / (["Paris", "London"] : List String).length :=
  ⟨(leave_one_out_max_spec "Paris" ["Paris"] (by decide)).1 "Paris" rfl,
   (leave_one_out_max_spec "Paris" ["Paris", "London"] (by decide)).2 (by decide)⟩

/-- C2 witness: one non-null candidate materializes (so the run completes),
the null text is absent after the walk, and the appended null entry carries
the tracked null logits `(5, 6)`. -/
theorem materializeNbest_witness :
    (([⟨"foo", 2, 3⟩, ⟨"CANNOTANSWER", 5, 6⟩] : List NbestPrediction) ≠ [] ∧
      (∃ e ∈ ([⟨"foo", 2, 3⟩, ⟨"CANNOTANSWER", 5, 6⟩] : List NbestPrediction),
        NbestPrediction.text e = "CANNOTANSWER") ∧
      ("CANNOTANSWER" ∉
          (nbestWalk (fun _ => "foo") "ctx" 20 [⟨1, 1, 2, 3⟩] ⟨[], [], [], none⟩).seen →
        [⟨"foo", 2, 3⟩, ⟨"CANNOTANSWER", 5, 6⟩] =
          (nbestWalk (fun _ => "foo") "ctx" 20 [⟨1, 1, 2, 3⟩] ⟨[], [], [], none⟩).nbest ++
            [⟨"CANNOTANSWER", 5, 6⟩])) ∧
    materializeNbest (fun _ => "foo") "ctx" 20 5 6 [⟨1, 1, 2, 3⟩] ≠ none :=
  ⟨(materializeNbest_spec (fun _ => "foo") "ctx" 20 5 6 [⟨1, 1, 2, 3⟩]).1
      [⟨"foo", 2, 3⟩, ⟨"CANNOTANSWER", 5, 6⟩]
      [⟨"foo", 2, 3, -1⟩, ⟨"CANNOTANSWER", 5, 6, -1⟩] (by decide),
   (materializeNbest_spec (fun _ => "foo") "ctx" 20 5 6 [⟨1, 1, 2, 3⟩]).2.2
      (by decide) (by decide)⟩

/-- C1 witness: with `score_null = 1`, threshold `0` and first non-null
entry `("foo", 2, 3)`, the score difference is `1 - 2 - 3` and the
prediction is `"foo"`. -/
theorem compute_predictions_logits_decision_witness :
    scoreDiff 1 [⟨"CANNOTANSWER", 1, 1⟩, ⟨"foo", 2, 3⟩] = 1 - 2 - 3 ∧
    finalPrediction 0 1 [⟨"CANNOTANSWER", 1, 1⟩, ⟨"foo", 2, 3⟩] = some "foo" := by
  have h := compute_predictions_logits_decision 1 0 [⟨"CANNOTANSWER", 1, 1⟩, ⟨"foo", 2, 3⟩]
  have h1 := h.1 ⟨"foo", 2, 3⟩ (by decide)
  refine ⟨h1, h.2.2.2 ?_ ⟨"foo", 2, 3⟩ (by decide)⟩
  rw [h1]
  norm_num

end ASConvQA
